import Mathlib

/-!
Verification development for the QSS solver (files `qss/proximal.py` and
`qss/qss.py`).  The embedding is shallow: numpy vectors become `List ℚ`,
elementwise numpy operations become pointwise operations, in-place
mutation of buffers becomes explicit state passing (the returned list is
the final state of the mutated buffer), and the external modules that the
solver calls (`precondition.ruiz`, `matrix.ir_solve`, `qdldl.Solver`,
`util.evaluate_stop_crit`, `util.evaluate_objective`, `polish.polish`,
`np.sqrt`) are abstract function parameters collected in a structure,
since their code is outside the two embedded files.
-/

namespace QSSpec

/-- Numpy-style numeric vectors, embedded as finite lists of rationals. -/
abbrev V := List ℚ

/-- Elementwise sum of two vectors (`a + b` on numpy arrays). -/
def vadd (a b : V) : V := List.zipWith (· + ·) a b

/-- Elementwise difference of two vectors (`a - b`). -/
def vsub (a b : V) : V := List.zipWith (· - ·) a b

/-- Elementwise product of two vectors (`a * b`). -/
def vmul (a b : V) : V := List.zipWith (· * ·) a b

/-- Scalar times vector (`c * v` with numpy broadcasting). -/
def smul (c : ℚ) (v : V) : V := v.map (fun a => c * a)

/-- Elementwise negation (`-v`). -/
def vneg (v : V) : V := v.map (fun a => -a)

/-- The norm `np.linalg.norm(v, ord=np.inf)`: the largest absolute value. -/
def infNorm (v : V) : ℚ := v.foldl (fun m a => max m |a|) 0

/-- Sum of squares of the entries, the square of `np.linalg.norm(v)`. -/
def sumSq (v : V) : ℚ := (v.map (fun a => a * a)).sum

/-- The five separable-function kinds registered in `proximal.py`
(`g_funcs` / `prox_ops` table keys). -/
inductive Kind where
  | zero
  | abs
  | indge0
  | indbox01
  | is_zero
deriving DecidableEq, Repr

/-- The operator `prox_zero(rho, v) = v` (proximal.py line 13), per coordinate. -/
def prox_zero (rho v : ℚ) : ℚ := v

/-- The operator `prox_abs(rho, v) = np.maximum(v - 1/rho, 0) - np.maximum(-v - 1/rho, 0)`
(proximal.py line 22), per coordinate; `rho` broadcasts elementwise. -/
def prox_abs (rho v : ℚ) : ℚ := max (v - 1 / rho) 0 - max (-v - 1 / rho) 0

/-- The operator `prox_indge0` (proximal.py line 35): entries with `v < 0` are set to `0`,
the rest are kept. -/
def prox_indge0 (rho v : ℚ) : ℚ := if v < 0 then 0 else v

/-- The operator `prox_indbox01` (proximal.py line 50): first the mask `v >= 1` is set to
`1`, then the mask `v <= 0` is set to `0`; an entry sent to `1` by the first
mask is not `≤ 0`, so the sequential masks give this per-coordinate form. -/
def prox_indbox01 (rho v : ℚ) : ℚ := if 1 ≤ v then 1 else if v ≤ 0 then 0 else v

/-- The operator `prox_is_zero(rho, v) = np.zeros(len(v))` (proximal.py line 65), per
coordinate. -/
def prox_is_zero (rho v : ℚ) : ℚ := 0

/-- The `prox_ops` dispatch table of proximal.py, as a closed match over the
five kinds; each operator acts per coordinate (all five numpy
implementations are elementwise, the penalty broadcasting elementwise). -/
def prox_ops : Kind → ℚ → ℚ → ℚ
  | Kind.zero => prox_zero
  | Kind.abs => prox_abs
  | Kind.indge0 => prox_indge0
  | Kind.indbox01 => prox_indbox01
  | Kind.is_zero => prox_is_zero

/-- One entry of the `g_list` argument: a dict
`{"g": kind, "range": (start, stop), "args": {weight, scale, shift}}`
with the defaults `weight = 1`, `scale = 1`, `shift = 0` already resolved
(apply_prox_ops lines 114-126 resolve missing args to these values). -/
structure Gterm where
  g : Kind
  start : ℕ
  stop : ℕ
  weight : ℚ := 1
  scale : ℚ := 1
  shift : ℚ := 0
deriving DecidableEq, Repr

/-- Membership of a coordinate in a term's half-open range. -/
def inRange (t : Gterm) (i : ℕ) : Prop := t.start ≤ i ∧ i < t.stop

instance (t : Gterm) (i : ℕ) : Decidable (inRange t i) := by
  unfold inRange; infer_instance

/-- Map a function of the index and the entry over a list, the index
starting at `n` (used to model writes into numpy slices). -/
def mapIdxFrom (f : ℕ → ℚ → ℚ) : ℕ → V → V
  | _, [] => []
  | n, a :: as => f n a :: mapIdxFrom f (n + 1) as

/-- The per-coordinate update that `apply_prox_ops` (proximal.py lines
128-134) performs at coordinate `i` of the slice of term `t`:
`new_scale = equil_scaling[i] * scale`, `new_rho = rho / (weight * new_scale²)`,
and the written value is `(prox(new_rho, new_scale * x[i] - shift) + shift) / new_scale`. -/
def localProx (rho : ℚ) (equil : V) (t : Gterm) (i : ℕ) (xi : ℚ) : ℚ :=
  (prox_ops t.g (rho / (t.weight * (equil.getD i 1 * t.scale) ^ 2))
      (equil.getD i 1 * t.scale * xi - t.shift) + t.shift) /
    (equil.getD i 1 * t.scale)

/-- The slice assignment `x[start:end] = (prox(new_rho, new_scale*x[start:end]
- shift) + shift) / new_scale` for a single term of the loop body of
`apply_prox_ops`: coordinates inside the term's range are rewritten with
`localProx`, the others are kept. -/
def applyProxTerm (rho : ℚ) (equil : V) (x : V) (t : Gterm) : V :=
  mapIdxFrom (fun i xi => if inRange t i then localProx rho equil t i xi else xi) 0 x

/-- The driver `apply_prox_ops(rho, equil_scaling, g_list, x)` (proximal.py lines
111-135): the loop over `g_list` threads the buffer `x` through the slice
assignments and returns the same buffer; in-place mutation is modelled by
state passing, the result being the final state of the input buffer. -/
def apply_prox_ops (rho : ℚ) (equil_scaling : V) (g_list : List Gterm) (x : V) : V :=
  g_list.foldl (applyProxTerm rho equil_scaling) x

/-- The value written by `get_subdifferential` (proximal.py lines 144-155)
at a coordinate of an abs-kind range: the branch ladder on `x[i]` and
`target[i]`. -/
def subdiffVal (xi ti : ℚ) : ℚ :=
  if xi = 0 then (if ti > 1 then -1 else if ti < -1 then 1 else -ti)
  else if xi > 0 then 1
  else -1

/-- One pass of the term loop of `get_subdifferential`: an abs-kind term
writes `subdiffVal` over its range into the output buffer, any other kind
leaves the buffer as it is (the `if func_name == "abs"` guard at
proximal.py line 143). -/
def subdiffStep (x target out : V) (t : Gterm) : V :=
  if t.g = Kind.abs then
    mapIdxFrom
      (fun i oi => if inRange t i then subdiffVal (x.getD i 0) (target.getD i 0) else oi)
      0 out
  else out

/-- The driver `get_subdifferential(g_list, x, target)` (proximal.py lines 138-157):
starts from `np.zeros(len(x))` and, for each abs-kind term, writes
`subdiffVal` over the term's range; terms of other kinds write nothing. -/
def get_subdifferential (g_list : List Gterm) (x target : V) : V :=
  g_list.foldl (subdiffStep x target) (List.replicate x.length 0)

/-- Two terms have disjoint (half-open) ranges. -/
def disjointRanges (s t : Gterm) : Prop := s.stop ≤ t.start ∨ t.stop ≤ s.start

theorem disjointRanges_not_inRange {s t : Gterm} {i : ℕ}
    (hd : disjointRanges s t) (hs : inRange s i) : ¬ inRange t i := by
  rcases hd with h | h <;> rintro ⟨h1, h2⟩ <;> rcases hs with ⟨h3, h4⟩ <;> omega

theorem disjointRanges_symm {s t : Gterm} (h : disjointRanges s t) :
    disjointRanges t s := Or.symm h

theorem mapIdxFrom_length (f : ℕ → ℚ → ℚ) : ∀ (n : ℕ) (l : V),
    (mapIdxFrom f n l).length = l.length := by
  intro n l
  induction l generalizing n with
  | nil => rfl
  | cons a as ih => simp [mapIdxFrom, ih]

theorem mapIdxFrom_getElem? (f : ℕ → ℚ → ℚ) : ∀ (n : ℕ) (l : V) (j : ℕ),
    (mapIdxFrom f n l)[j]? = (l[j]?).map (f (n + j)) := by
  intro n l
  induction l generalizing n with
  | nil => intro j; simp [mapIdxFrom]
  | cons a as ih =>
    intro j
    cases j with
    | zero => simp [mapIdxFrom]
    | succ j =>
      have h := ih (n + 1) j
      have harith : n + 1 + j = n + (j + 1) := by omega
      simp only [mapIdxFrom, List.getElem?_cons_succ, h, harith]

theorem mapIdxFrom_getD (f : ℕ → ℚ → ℚ) (n : ℕ) (l : V) (j : ℕ) (d : ℚ)
    (hj : j < l.length) : (mapIdxFrom f n l).getD j d = f (n + j) (l.getD j d) := by
  have h1 : l[j]? = some (l.get ⟨j, hj⟩) := List.getElem?_eq_getElem hj
  have h2 : (mapIdxFrom f n l)[j]? = some (f (n + j) (l.get ⟨j, hj⟩)) := by
    rw [mapIdxFrom_getElem?, h1]; rfl
  rw [List.getD_eq_getElem?_getD, List.getD_eq_getElem?_getD, h1, h2]
  rfl

theorem applyProxTerm_length (rho : ℚ) (equil x : V) (t : Gterm) :
    (applyProxTerm rho equil x t).length = x.length :=
  mapIdxFrom_length _ _ _

theorem applyProxTerm_getElem? (rho : ℚ) (equil x : V) (t : Gterm) (i : ℕ) :
    (applyProxTerm rho equil x t)[i]? =
      (x[i]?).map (fun xi => if inRange t i then localProx rho equil t i xi else xi) := by
  rw [applyProxTerm, mapIdxFrom_getElem?]
  simp

theorem applyProxTerm_frame (rho : ℚ) (equil x : V) (t : Gterm) (i : ℕ)
    (h : ¬ inRange t i) : (applyProxTerm rho equil x t)[i]? = x[i]? := by
  rw [applyProxTerm_getElem?]
  simp only [if_neg h]
  cases x[i]? <;> rfl

theorem apply_prox_ops_length (rho : ℚ) (equil : V) (gs : List Gterm) : ∀ x : V,
    (apply_prox_ops rho equil gs x).length = x.length := by
  induction gs with
  | nil => intro x; rfl
  | cons t ts ih =>
    intro x
    show (apply_prox_ops rho equil ts (applyProxTerm rho equil x t)).length = _
    rw [ih, applyProxTerm_length]

theorem apply_prox_ops_frame (rho : ℚ) (equil : V) (gs : List Gterm) (i : ℕ) :
    ∀ x : V, (∀ t ∈ gs, ¬ inRange t i) →
      (apply_prox_ops rho equil gs x)[i]? = x[i]? := by
  induction gs with
  | nil => intro x _; rfl
  | cons t ts ih =>
    intro x h
    show (apply_prox_ops rho equil ts (applyProxTerm rho equil x t))[i]? = _
    rw [ih _ fun t' ht' => h t' (List.mem_cons_of_mem _ ht'),
      applyProxTerm_frame _ _ _ _ _ (h t (List.mem_cons_self _ _))]

theorem apply_prox_ops_mem (rho : ℚ) (equil : V) (gs : List Gterm) (i : ℕ)
    (hdisj : gs.Pairwise disjointRanges) : ∀ x : V, ∀ t ∈ gs, inRange t i →
      (apply_prox_ops rho equil gs x)[i]? = (x[i]?).map (localProx rho equil t i) := by
  induction gs with
  | nil => intro x t ht; exact absurd ht (List.not_mem_nil t)
  | cons t0 ts ih =>
    rcases List.pairwise_cons.mp hdisj with ⟨hd0, hdts⟩
    intro x t ht hti
    rcases List.mem_cons.mp ht with rfl | hmem
    · show (apply_prox_ops rho equil ts (applyProxTerm rho equil x t))[i]? = _
      rw [apply_prox_ops_frame _ _ _ _ _
          fun t' ht' => disjointRanges_not_inRange (hd0 t' ht') hti,
        applyProxTerm_getElem?]
      cases x[i]? with
      | none => rfl
      | some xi => simp [if_pos hti]
    · show (apply_prox_ops rho equil ts (applyProxTerm rho equil x t0))[i]? = _
      rw [ih hdts _ t hmem hti,
        applyProxTerm_frame _ _ _ _ _
          (disjointRanges_not_inRange (disjointRanges_symm (hd0 t hmem)) hti)]

theorem subdiffStep_length (x target out : V) (t : Gterm) :
    (subdiffStep x target out t).length = out.length := by
  unfold subdiffStep
  split
  · exact mapIdxFrom_length _ _ _
  · rfl

theorem subdiffStep_getD (x target out : V) (t : Gterm) (i : ℕ)
    (hi : i < out.length) :
    (subdiffStep x target out t).getD i 0 =
      if t.g = Kind.abs ∧ inRange t i then subdiffVal (x.getD i 0) (target.getD i 0)
      else out.getD i 0 := by
  unfold subdiffStep
  by_cases habs : t.g = Kind.abs
  · rw [if_pos habs, mapIdxFrom_getD _ _ _ _ _ hi, Nat.zero_add]
    by_cases hr : inRange t i
    · rw [if_pos hr, if_pos ⟨habs, hr⟩]
    · rw [if_neg hr, if_neg (fun h => hr h.2)]
  · rw [if_neg habs, if_neg (fun h => habs h.1)]

theorem subdiff_fold (x target : V) : ∀ (ts : List Gterm) (out : V),
    ∀ i, i < out.length →
      (ts.foldl (subdiffStep x target) out).getD i 0 =
        if ∃ t ∈ ts, t.g = Kind.abs ∧ inRange t i then
          subdiffVal (x.getD i 0) (target.getD i 0)
        else out.getD i 0 := by
  intro ts
  induction ts with
  | nil => intro out i _; simp
  | cons t ts ih =>
    intro out i hi
    have hlen : i < (subdiffStep x target out t).length := by
      rw [subdiffStep_length]; exact hi
    show (ts.foldl (subdiffStep x target) (subdiffStep x target out t)).getD i 0 = _
    rw [ih _ i hlen, subdiffStep_getD _ _ _ _ _ hi]
    by_cases hts : ∃ t' ∈ ts, t'.g = Kind.abs ∧ inRange t' i
    · rcases hts with ⟨t', ht', hP⟩
      rw [if_pos ⟨t', ht', hP⟩, if_pos ⟨t', List.mem_cons_of_mem _ ht', hP⟩]
    · rw [if_neg hts]
      by_cases hC : t.g = Kind.abs ∧ inRange t i
      · rw [if_pos hC, if_pos ⟨t, List.mem_cons_self _ _, hC⟩]
      · rw [if_neg hC, if_neg ?_]
        rintro ⟨t', ht', hP⟩
        rcases List.mem_cons.mp ht' with rfl | hmem
        · exact hC hP
        · exact hts ⟨t', hmem, hP⟩

theorem replicate_zero_getD (n i : ℕ) : (List.replicate n (0 : ℚ)).getD i 0 = 0 := by
  induction n generalizing i with
  | zero => cases i <;> rfl
  | succ n ih =>
    cases i with
    | zero => rfl
    | succ i => exact ih i

/-- The branch ladder of `get_subdifferential` at a coordinate is the
sign for nonzero entries and the clip of `-target` to `[-1, 1]` at zero. -/
theorem subdiffVal_eq (xi ti : ℚ) :
    subdiffVal xi ti =
      if xi ≠ 0 then (if 0 < xi then 1 else -1) else max (-1) (min 1 (-ti)) := by
  unfold subdiffVal
  by_cases h : xi = 0
  · rw [if_pos h, if_neg (show ¬ xi ≠ 0 from fun hx => hx h)]
    by_cases h1 : ti > 1
    · rw [if_pos h1, min_eq_right (by linarith), max_eq_left (by linarith)]
    · by_cases h2 : ti < -1
      · rw [if_neg h1, if_pos h2, min_eq_left (by linarith), max_eq_right (by linarith)]
      · push_neg at h1 h2
        rw [if_neg (not_lt.mpr h1), if_neg (not_lt.mpr h2),
          min_eq_right (by linarith), max_eq_right (by linarith)]
  · rw [if_neg h, if_pos h]

/-- Claim C9: the proximal operator of the zero kind is the identity: for
every penalty `rho` and every vector `v` it returns `v`. -/
theorem c9_prox_zero_identity (rho : ℚ) (v : V) :
    v.map (prox_zero rho) = v ∧ ∀ a : ℚ, prox_ops Kind.zero rho a = a := by
  constructor
  · exact List.map_id' v
  · intro a; rfl

/-- Claim C4: for every penalty `rho > 0`, the abs-kind proximal operator is
the elementwise soft threshold `max (v - 1/rho) 0 - max (-v - 1/rho) 0`
(equivalently the three-branch shrinkage), and at penalty `1` on the scalar
`3` it returns exactly `2`. -/
theorem c4_prox_abs_soft_threshold (rho : ℚ) (h : 0 < rho) :
    (∀ v : ℚ, prox_abs rho v = max (v - 1 / rho) 0 - max (-v - 1 / rho) 0) ∧
    (∀ v : ℚ, prox_abs rho v =
      if 1 / rho < v then v - 1 / rho else if v < -(1 / rho) then v + 1 / rho else 0) ∧
    prox_abs 1 3 = 2 := by
  have hc : 0 < 1 / rho := by positivity
  refine ⟨fun v => rfl, fun v => ?_, by norm_num [prox_abs]⟩
  unfold prox_abs
  by_cases h1 : 1 / rho < v
  · rw [if_pos h1, max_eq_left (by linarith), max_eq_right (by linarith)]
    ring
  · push_neg at h1
    by_cases h2 : v < -(1 / rho)
    · rw [if_neg (not_lt.mpr h1), if_pos h2, max_eq_right (by linarith),
        max_eq_left (by linarith)]
      ring
    · push_neg at h2
      rw [if_neg (not_lt.mpr h1), if_neg (not_lt.mpr h2), max_eq_right (by linarith),
        max_eq_right (by linarith)]
      ring

theorem c4_prox_abs_soft_threshold_witness :
    (∀ v : ℚ, prox_abs 1 v = max (v - 1 / 1) 0 - max (-v - 1 / 1) 0) ∧
    (∀ v : ℚ, prox_abs 1 v =
      if 1 / 1 < v then v - 1 / 1 else if v < -(1 / 1) then v + 1 / 1 else 0) ∧
    prox_abs 1 3 = 2 :=
  c4_prox_abs_soft_threshold 1 (by norm_num)

/-- Claim C5: for every penalty `rho > 0`, the box-indicator proximal
operator lands coordinatewise in `[0, 1]` and the nonnegativity-indicator
proximal operator lands coordinatewise in `[0, ∞)`. -/
theorem c5_prox_indicator_ranges (rho : ℚ) (h : 0 < rho) :
    (∀ v : V, ∀ y ∈ v.map (prox_indbox01 rho), 0 ≤ y ∧ y ≤ 1) ∧
    (∀ v : V, ∀ y ∈ v.map (prox_indge0 rho), 0 ≤ y) := by
  constructor
  · intro v y hy
    rcases List.mem_map.mp hy with ⟨a, _, rfl⟩
    unfold prox_indbox01
    split_ifs with h1 h2
    · norm_num
    · norm_num
    · push_neg at h1 h2
      exact ⟨by linarith, by linarith⟩
  · intro v y hy
    rcases List.mem_map.mp hy with ⟨a, _, rfl⟩
    unfold prox_indge0
    split_ifs with h1
    · norm_num
    · push_neg at h1
      exact h1

theorem c5_prox_indicator_ranges_witness :
    (∀ v : V, ∀ y ∈ v.map (prox_indbox01 1), 0 ≤ y ∧ y ≤ 1) ∧
    (∀ v : V, ∀ y ∈ v.map (prox_indge0 1), 0 ≤ y) :=
  c5_prox_indicator_ranges 1 (by norm_num)

/-- Claim C2: for pairwise-disjoint term ranges, `apply_prox_ops` preserves
the buffer length, rewrites each coordinate of each term's range with the
term's rescaled proximal formula
`(prox(rho / (weight·(equilScale[i]·scale)²), equilScale[i]·scale·x[i] − shift) + shift) / (equilScale[i]·scale)`
applied to the original entry, and leaves every coordinate outside all
ranges unchanged; in-place mutation is modelled by the state-passed buffer,
the returned list being the final state of the input buffer. -/
theorem c2_apply_prox_ops_spec (rho : ℚ) (equil x : V) (gs : List Gterm)
    (hdisj : gs.Pairwise disjointRanges) :
    (apply_prox_ops rho equil gs x).length = x.length ∧
    (∀ t ∈ gs, ∀ i : ℕ, inRange t i →
      (apply_prox_ops rho equil gs x)[i]? =
        (x[i]?).map fun xi =>
          (prox_ops t.g (rho / (t.weight * (equil.getD i 1 * t.scale) ^ 2))
              (equil.getD i 1 * t.scale * xi - t.shift) + t.shift) /
            (equil.getD i 1 * t.scale)) ∧
    (∀ i : ℕ, (∀ t ∈ gs, ¬ inRange t i) → (apply_prox_ops rho equil gs x)[i]? = x[i]?) :=
  ⟨apply_prox_ops_length rho equil gs x,
    fun t ht i hti => apply_prox_ops_mem rho equil gs i hdisj x t ht hti,
    fun i h => apply_prox_ops_frame rho equil gs i x h⟩

theorem c2_apply_prox_ops_spec_witness :
    (apply_prox_ops 1 [1, 1] [⟨Kind.abs, 0, 1, 1, 1, 0⟩] [3, 5]).length =
        ([3, 5] : V).length ∧
    (∀ t ∈ [(⟨Kind.abs, 0, 1, 1, 1, 0⟩ : Gterm)], ∀ i : ℕ, inRange t i →
      (apply_prox_ops 1 [1, 1] [⟨Kind.abs, 0, 1, 1, 1, 0⟩] [3, 5])[i]? =
        ((([3, 5] : V))[i]?).map fun xi =>
          (prox_ops t.g (1 / (t.weight * (([1, 1] : V).getD i 1 * t.scale) ^ 2))
              (([1, 1] : V).getD i 1 * t.scale * xi - t.shift) + t.shift) /
            (([1, 1] : V).getD i 1 * t.scale)) ∧
    (∀ i : ℕ, (∀ t ∈ [(⟨Kind.abs, 0, 1, 1, 1, 0⟩ : Gterm)], ¬ inRange t i) →
      (apply_prox_ops 1 [1, 1] [⟨Kind.abs, 0, 1, 1, 1, 0⟩] [3, 5])[i]? =
        (([3, 5] : V))[i]?) :=
  c2_apply_prox_ops_spec 1 [1, 1] [3, 5] [⟨Kind.abs, 0, 1, 1, 1, 0⟩]
    (List.pairwise_singleton _ _)

/-- Claim C6: at every in-bounds coordinate, `get_subdifferential` returns
the sign of `x[i]` when the coordinate is covered by an abs-kind term and
`x[i] ≠ 0`, the clip of `-target[i]` to `[-1, 1]` when it is covered and
`x[i] = 0`, and `0` when no abs-kind term covers it. -/
theorem c6_get_subdifferential_spec (gs : List Gterm) (x target : V) (i : ℕ)
    (hi : i < x.length) :
    (get_subdifferential gs x target).getD i 0 =
      if ∃ t ∈ gs, t.g = Kind.abs ∧ inRange t i then
        (if x.getD i 0 ≠ 0 then (if 0 < x.getD i 0 then 1 else -1)
         else max (-1) (min 1 (-(target.getD i 0))))
      else 0 := by
  rw [get_subdifferential,
    subdiff_fold x target gs _ i (by rw [List.length_replicate]; exact hi),
    replicate_zero_getD, subdiffVal_eq]

theorem c6_get_subdifferential_spec_witness :
    (get_subdifferential [⟨Kind.abs, 0, 1, 1, 1, 0⟩] [2] [0]).getD 0 0 =
      if ∃ t ∈ [(⟨Kind.abs, 0, 1, 1, 1, 0⟩ : Gterm)], t.g = Kind.abs ∧ inRange t 0 then
        (if ([2] : V).getD 0 0 ≠ 0 then (if 0 < ([2] : V).getD 0 0 then 1 else -1)
         else max (-1) (min 1 (-(([0] : V).getD 0 0))))
      else 0 :=
  c6_get_subdifferential_spec [⟨Kind.abs, 0, 1, 1, 1, 0⟩] [2] [0] 0 (by norm_num)

/-! ## The solver engine of `qss/qss.py` -/

/-- Dense semantic view of a matrix: the entry at row `i`, column `j`. -/
abbrev MatF := ℕ → ℕ → ℚ

/-- A scipy sparse matrix: a shape and the list of stored entries
`(row, col, value)`. -/
structure SparseMat where
  rows : ℕ
  cols : ℕ
  entries : List (ℕ × ℕ × ℚ)

/-- The field `A.nnz`: the number of stored entries. -/
def SparseMat.nnz (A : SparseMat) : ℕ := A.entries.length

/-- The semantic entry of a sparse matrix (duplicate stored entries sum). -/
def SparseMat.toFun (A : SparseMat) (i j : ℕ) : ℚ :=
  ((A.entries.filter (fun e => e.1 == i && e.2.1 == j)).map (fun e => e.2.2)).sum

/-- The problem dictionary handed to the `QSS` constructor:
`{P, q, r, A, b, g}`. -/
structure Problem where
  P : SparseMat
  q : V
  r : ℚ
  A : SparseMat
  b : V
  g : List Gterm

/-- The recognized options of `QSS.__init__` (qss.py lines 13-38), with
their defaults; `max_iter` defaults to `np.inf`, embedded as `(⊤ : ℕ∞)`. -/
structure Config where
  eps_abs : ℚ := 1 / 10 ^ 4
  eps_rel : ℚ := 1 / 10 ^ 4
  alpha : ℚ := 14 / 10
  rho : ℚ := 1 / 10
  max_iter : ℕ∞ := ⊤
  precond : Bool := true
  reg : Bool := true
  use_iter_refinement : Bool := true
  polish : Bool := false
  verbose : Bool := false

/-- Modelled from the spec: the collaborators of `QSS.solve` whose code is
not under `src/` — `precondition.ruiz`, `qdldl.Solver.solve`,
`matrix.ir_solve`, `util.evaluate_stop_crit`, `util.evaluate_objective`,
`polish.polish`, and the float `np.sqrt` — embedded as abstract function
parameters.  Per §4.2 the equilibration computes the scaling `D`, the
objective scale and the rescaled `P`, `q`, `r`, `A` by a Ruiz pass over the
`[P; A]` system and the cost, so `ruizMain` does not receive `b`; the
transformed right-hand side is the separate `ruizB`.  A `qdldl`
factorization handle is modelled by the matrix it currently holds. -/
structure Externals where
  ruizMain : SparseMat → V → ℚ → SparseMat → MatF × V × ℚ × MatF × V × ℚ
  ruizB : SparseMat → V → ℚ → SparseMat → V → V
  linSolve : MatF → V → V
  irSolve : MatF → MatF → V → V
  stopCrit : V → V → V → V → ℕ → ℚ → ℚ → ℚ → Bool
  evalObj : MatF → V → ℚ → List Gterm → V → ℚ → V → ℚ
  polishFn : List Gterm → V → MatF → V → ℚ → MatF → V → V → ℚ → ℕ → V
  sqrtQ : ℚ → ℚ

/-- The problem data after the optional preconditioning step (qss.py lines
56-75): with `precond` on, the data other than `b` plus the scaling vector
and objective scale come from the Ruiz pass; otherwise the raw data with
`equil_scaling = np.ones(dim)` and `obj_scale = 1`.  The components are
`(P, q, r, A, equil_scaling, obj_scale)`. -/
def scaledData (ext : Externals) (cfg : Config) (data : Problem) :
    MatF × V × ℚ × MatF × V × ℚ :=
  if cfg.precond then ext.ruizMain data.P data.q data.r data.A
  else (data.P.toFun, data.q, data.r, data.A.toFun, List.replicate data.P.rows 1, 1)

/-- The preconditioned right-hand side `b` (rescaled by the Ruiz pass when
`precond` is on, the raw `b` otherwise). -/
def scaledB (ext : Externals) (cfg : Config) (data : Problem) : V :=
  if cfg.precond then ext.ruizB data.P data.q data.r data.A data.b else data.b

/-- Modelled from the spec: `matrix.build_kkt(P, A, reg, rho, dim, cdim)` is
not under `src/`; per §4.3 it assembles the `(dim+cdim)`-square saddle
matrix with top-left block `P + rho·I`, off-diagonal blocks `Aᵗ` and `A`,
and bottom-right block `reg·I`. -/
def build_kkt (P A : MatF) (reg rho : ℚ) (dim cdim : ℕ) : MatF := fun i j =>
  if i < dim then
    (if j < dim then P i j + (if i = j then rho else 0) else A (j - dim) i)
  else (if j < dim then A (i - dim) j else if i = j then reg else 0)

/-- The KKT construction and factorization of `solve` (qss.py lines 89-95):
with constraints (`A.nnz != 0`) the exact and the `-1e-7`-regularized
saddle matrices are built and the regularized one is factorized; without
constraints `P + rho·identity(dim)` alone is factorized, and no second
matrix exists.  The components are `(quad_kkt, quad_kkt_reg?, F)`. -/
def initKKTOf (ext : Externals) (cfg : Config) (data : Problem) :
    MatF × Option MatF × MatF :=
  let dim := data.P.rows
  let cdim := if data.A.nnz != 0 then data.A.rows else 0
  let sd := scaledData ext cfg data
  let P := sd.1
  let A := sd.2.2.2.1
  if data.A.nnz != 0 then
    (build_kkt P A 0 cfg.rho dim cdim,
     some (build_kkt P A (-(1 / 10 ^ 7)) cfg.rho dim cdim),
     build_kkt P A (-(1 / 10 ^ 7)) cfg.rho dim cdim)
  else
    ((fun i j => P i j + if i = j ∧ i < dim then cfg.rho else 0), none,
     (fun i j => P i j + if i = j ∧ i < dim then cfg.rho else 0))

/-- The z- and u-updates of one ADMM iteration (qss.py lines 122-128):
`zk1 = apply_prox_ops(rho / obj_scale, equil_scaling, g, alpha·xk1 + (1-alpha)·zk + uk)`
and `uk1 = uk + alpha·xk1 + (1-alpha)·zk - zk1`. -/
def zuUpdate (alpha rho objScale : ℚ) (equil : V) (g : List Gterm)
    (xk1 zk uk : V) : V × V :=
  let zk1 := apply_prox_ops (rho / objScale) equil g
    (vadd (vadd (smul alpha xk1) (smul (1 - alpha) zk)) uk)
  (zk1, vsub (vadd (vadd uk (smul alpha xk1)) (smul (1 - alpha) zk)) zk1)

/-- The in-place diagonal replacement `M - rho_vec + new_rho_vec` of the
penalty step (qss.py lines 203-210): `rho_vec` is the diagonal of
`concatenate([rho*ones(dim), zeros(cdim)])`. -/
def updDiag (dim : ℕ) (rho cand : ℚ) (M : MatF) : MatF := fun i j =>
  M i j - (if i = j ∧ i < dim then rho else 0) + (if i = j ∧ i < dim then cand else 0)

/-- The adaptive-penalty step of `solve` (qss.py lines 195-217), given the
already-computed candidate `cand0`: a candidate equal to `0` is replaced by
`rho` (line 196); the update fires only when the resulting candidate and
`rho` differ by more than a factor of 5 (line 200), rescaling `u` by
`rho / cand`, replacing the diagonal `rho`-block of both KKT matrices, and
updating the factorization handle in place with the regularized matrix
(with constraints) or the plain one.  The components are
`(rho, uk1, quad_kkt, quad_kkt_reg?, F)`. -/
def rhoUpdate (dim : ℕ) (hasConstr : Bool) (cand0 rho : ℚ) (u : V)
    (kkt : MatF) (kktReg : Option MatF) (F : MatF) :
    ℚ × V × MatF × Option MatF × MatF :=
  let cand := if cand0 = 0 then rho else cand0
  if cand / rho > 5 ∨ rho / cand > 5 then
    let u' := u.map (fun a => a * rho / cand)
    let kkt' := updDiag dim rho cand kkt
    let kktReg' := kktReg.map (updDiag dim rho cand)
    (cand, u', kkt', kktReg', if hasConstr then kktReg'.getD kkt' else kkt')
  else (rho, u, kkt, kktReg, F)

/-- The loop-invariant environment of `QSS.solve`'s main loop. -/
structure Env where
  ext : Externals
  eps_abs : ℚ
  eps_rel : ℚ
  alpha : ℚ
  max_iter : ℕ∞
  use_iter_refinement : Bool
  doPolish : Bool
  dim : ℕ
  cdim : ℕ
  hasConstr : Bool
  P : MatF
  q : V
  r : ℚ
  A : MatF
  b : V
  D : V
  c : ℚ
  g : List Gterm

/-- The mutable per-iteration state of the main loop. -/
structure LoopSt where
  iter : ℕ
  xk : V
  zk : V
  uk : V
  rho : ℚ
  kkt : MatF
  kktReg : Option MatF
  F : MatF

/-- The x-update (qss.py lines 106-120): with constraints the KKT system is
solved on `concatenate([-q + rho*(zk - uk), b])` (through `matrix.ir_solve`
when iterative refinement is on, the raw factorized solve otherwise) and
the first `dim` entries are kept; without constraints the factorized
`P + rho·I` is solved on `-q + rho*(zk - uk)`. -/
def xUpdate (env : Env) (s : LoopSt) : V :=
  let rhs := vadd (vneg env.q) (smul s.rho (vsub s.zk s.uk))
  if env.hasConstr then
    (if env.use_iter_refinement then env.ext.irSolve s.kkt s.F (rhs ++ env.b)
     else env.ext.linSolve s.F (rhs ++ env.b)).take env.dim
  else env.ext.linSolve s.F rhs

/-- The candidate penalty (qss.py lines 179-190):
`rho * sqrt(r_prim / (r_dual + 1e-30) * ‖rho*uk1‖ / (max(‖xk1‖∞, ‖zk1‖∞) + 1e-30))`,
the 2-norm and the square root going through the float `sqrt` oracle. -/
def rhoCandidate (ext : Externals) (rho : ℚ) (xk1 zk zk1 uk1 : V) : ℚ :=
  let r_prim := infNorm (vsub xk1 zk1)
  let r_dual := infNorm (smul rho (vsub zk zk1))
  rho * ext.sqrtQ
    (r_prim / (r_dual + 1 / 10 ^ 30) * ext.sqrtQ (sumSq (smul rho uk1)) /
      (max (infNorm xk1) (infNorm zk1) + 1 / 10 ^ 30))

/-- One full pass of the main loop of `solve` (qss.py lines 104-221) on
state `s`: either the stop branch returns the objective at the (possibly
polished) final iterate together with `equil_scaling * z` (lines 148-175),
or the next loop state is produced, the penalty step firing on every 10th
iteration. -/
def loopBody (env : Env) (s : LoopSt) : (ℚ × V) ⊕ LoopSt :=
  let iter1 := s.iter + 1
  let xk1 := xUpdate env s
  let zu := zuUpdate env.alpha s.rho env.c env.D env.g xk1 s.zk s.uk
  let zk1 := zu.1
  let uk1 := zu.2
  if (iter1 : ℕ∞) = env.max_iter ∨
      (iter1 % 10 = 0 ∧
        env.ext.stopCrit xk1 s.zk zk1 uk1 env.dim s.rho env.eps_abs env.eps_rel) then
    let zfin := if env.doPolish then
        env.ext.polishFn env.g zk1 env.P env.q env.r env.A env.b env.D env.c env.dim
      else zk1
    Sum.inl (env.ext.evalObj env.P env.q env.r env.g zfin env.c env.D, vmul env.D zfin)
  else
    let upd := if iter1 % 10 = 0 then
        rhoUpdate env.dim env.hasConstr (rhoCandidate env.ext s.rho xk1 s.zk zk1 uk1)
          s.rho uk1 s.kkt s.kktReg s.F
      else (s.rho, uk1, s.kkt, s.kktReg, s.F)
    Sum.inr { iter := iter1, xk := xk1, zk := zk1, uk := upd.2.1,
              rho := upd.1, kkt := upd.2.2.1, kktReg := upd.2.2.2.1, F := upd.2.2.2.2 }

/-- The `while True` loop, driven by a fuel parameter (`none` meaning the
fuel ran out before the loop returned). -/
def loopAux (env : Env) : ℕ → LoopSt → Option (ℚ × V)
  | 0, _ => none
  | fuel + 1, s =>
    match loopBody env s with
    | Sum.inl out => some out
    | Sum.inr s' => loopAux env fuel s'

/-- The loop environment that `QSS.solve` sets up before entering the main
loop (qss.py lines 41-95). -/
def mkEnv (ext : Externals) (cfg : Config) (data : Problem) : Env :=
  let sd := scaledData ext cfg data
  { ext := ext, eps_abs := cfg.eps_abs, eps_rel := cfg.eps_rel,
    alpha := cfg.alpha, max_iter := cfg.max_iter,
    use_iter_refinement := cfg.use_iter_refinement, doPolish := cfg.polish,
    dim := data.P.rows,
    cdim := if data.A.nnz != 0 then data.A.rows else 0,
    hasConstr := data.A.nnz != 0,
    P := sd.1, q := sd.2.1, r := sd.2.2.1, A := sd.2.2.2.1,
    b := scaledB ext cfg data, D := sd.2.2.2.2.1, c := sd.2.2.2.2.2,
    g := data.g }

/-- The initial loop state: iteration 0, all-zero vectors of length `dim`,
the configured initial penalty, and the freshly built KKT matrices and
factorization (qss.py lines 46-95). -/
def initSt (ext : Externals) (cfg : Config) (data : Problem) : LoopSt :=
  let kkts := initKKTOf ext cfg data
  { iter := 0, xk := List.replicate data.P.rows 0,
    zk := List.replicate data.P.rows 0, uk := List.replicate data.P.rows 0,
    rho := cfg.rho, kkt := kkts.1, kktReg := kkts.2.1, F := kkts.2.2 }

/-- The method `QSS.solve` (qss.py lines 40-221): preconditioning, KKT construction,
then the main loop. -/
def solve (ext : Externals) (fuel : ℕ) (cfg : Config) (data : Problem) :
    Option (ℚ × V) :=
  loopAux (mkEnv ext cfg data) fuel (initSt ext cfg data)

/-! ## Claims about the iteration engine -/

/-- Claim C1: in every ADMM iteration, for every state and relaxation
parameter, the consensus update is
`z_new = apply_prox_ops(rho/objScale, D, g, alpha*x_new + (1-alpha)*z + u)`
and the scaled dual update is
`u_new = u + alpha*x_new + (1-alpha)*z - z_new`. -/
theorem c1_zu_update_formulas (alpha rho objScale : ℚ) (equil : V)
    (g : List Gterm) (xk1 zk uk : V) :
    (zuUpdate alpha rho objScale equil g xk1 zk uk).1 =
      apply_prox_ops (rho / objScale) equil g
        (vadd (vadd (smul alpha xk1) (smul (1 - alpha) zk)) uk) ∧
    (zuUpdate alpha rho objScale equil g xk1 zk uk).2 =
      vsub (vadd (vadd uk (smul alpha xk1)) (smul (1 - alpha) zk))
        (zuUpdate alpha rho objScale equil g xk1 zk uk).1 :=
  ⟨rfl, rfl⟩

/-- Claim C3: the penalty step applies the update only when the (zero-fixed)
candidate and `rho` differ by more than a factor of 5: a candidate of
exactly `0` retains `rho` and leaves the dual, both KKT matrices and the
factorization handle untouched, as does any candidate with
`1/5 ≤ cand/rho ≤ 5`; an applied update rescales `u` by the factor
`rho/cand`, replaces the diagonal block of both matrices, and refreshes the
handle in place. -/
theorem c3_rho_update_hysteresis (dim : ℕ) (hasConstr : Bool) (cand0 rho : ℚ)
    (u : V) (kkt : MatF) (kktReg : Option MatF) (F : MatF)
    (hrho : 0 < rho) :
    (cand0 = 0 →
      rhoUpdate dim hasConstr cand0 rho u kkt kktReg F = (rho, u, kkt, kktReg, F)) ∧
    (1 / 5 ≤ cand0 / rho → cand0 / rho ≤ 5 →
      rhoUpdate dim hasConstr cand0 rho u kkt kktReg F = (rho, u, kkt, kktReg, F)) ∧
    (cand0 ≠ 0 → (cand0 / rho > 5 ∨ rho / cand0 > 5) →
      rhoUpdate dim hasConstr cand0 rho u kkt kktReg F =
        (cand0, smul (rho / cand0) u, updDiag dim rho cand0 kkt,
         kktReg.map (updDiag dim rho cand0),
         if hasConstr then
           (kktReg.map (updDiag dim rho cand0)).getD (updDiag dim rho cand0 kkt)
         else updDiag dim rho cand0 kkt)) := by
  have hrho' : rho ≠ 0 := ne_of_gt hrho
  refine ⟨?_, ?_, ?_⟩
  · intro h0
    unfold rhoUpdate
    rw [if_pos h0, if_neg ?_]
    rw [div_self hrho']
    rintro (h | h) <;> norm_num at h
  · intro hlo hhi
    have hc : 0 < cand0 := by
      by_contra hc
      push_neg at hc
      have : cand0 / rho ≤ 0 := div_nonpos_of_nonpos_of_nonneg hc (le_of_lt hrho)
      linarith
    have hcr : rho / cand0 ≤ 5 := by
      rw [div_le_iff₀ hc]
      have := (le_div_iff₀ hrho).mp hlo
      linarith
    unfold rhoUpdate
    rw [if_neg (ne_of_gt hc), if_neg ?_]
    rintro (h | h) <;> linarith
  · intro h0 happ
    unfold rhoUpdate
    rw [if_neg h0, if_pos happ]
    have hu : u.map (fun a => a * rho / cand0) = smul (rho / cand0) u := by
      unfold smul
      apply List.map_congr_left
      intro a _
      ring
    rw [hu]

theorem c3_rho_update_hysteresis_witness :
    ((0 : ℚ) = 0 →
      rhoUpdate 1 false 0 1 [1] (fun _ _ => 0) none (fun _ _ => 0) =
        (1, [1], (fun _ _ => 0), none, (fun _ _ => 0))) ∧
    ((1 : ℚ) / 5 ≤ 0 / 1 → (0 : ℚ) / 1 ≤ 5 →
      rhoUpdate 1 false 0 1 [1] (fun _ _ => 0) none (fun _ _ => 0) =
        (1, [1], (fun _ _ => 0), none, (fun _ _ => 0))) ∧
    ((0 : ℚ) ≠ 0 → ((0 : ℚ) / 1 > 5 ∨ (1 : ℚ) / 0 > 5) →
      rhoUpdate 1 false 0 1 [1] (fun _ _ => 0) none (fun _ _ => 0) =
        (0, smul (1 / 0) [1], updDiag 1 1 0 (fun _ _ => 0),
         Option.map (updDiag 1 1 0) none,
         if false then
           (Option.map (updDiag 1 1 0) none).getD (updDiag 1 1 0 (fun _ _ => 0))
         else updDiag 1 1 0 (fun _ _ => 0))) :=
  c3_rho_update_hysteresis 1 false 0 1 [1] (fun _ _ => 0) none (fun _ _ => 0)
    (by norm_num)

/-- Claim C7: the `reg` constructor flag is stored but never read by
`solve`: flipping it leaves the result of `solve` unchanged for every
problem, fuel, and setting of the other options. -/
theorem c7_reg_has_no_effect (ext : Externals) (fuel : ℕ) (cfg : Config)
    (data : Problem) (b : Bool) :
    solve ext fuel { cfg with reg := b } data = solve ext fuel cfg data := rfl

theorem loopBody_cases (env : Env) (s : LoopSt) :
    (∃ z : V, loopBody env s =
      Sum.inl (env.ext.evalObj env.P env.q env.r env.g z env.c env.D, vmul env.D z)) ∨
    (∃ s' : LoopSt, loopBody env s = Sum.inr s' ∧ s'.iter = s.iter + 1 ∧
      ((s.iter + 1 : ℕ) : ℕ∞) ≠ env.max_iter) := by
  unfold loopBody
  by_cases hstop : ((s.iter + 1 : ℕ) : ℕ∞) = env.max_iter ∨
      ((s.iter + 1) % 10 = 0 ∧
        env.ext.stopCrit (xUpdate env s) s.zk
          (zuUpdate env.alpha s.rho env.c env.D env.g (xUpdate env s) s.zk s.uk).1
          (zuUpdate env.alpha s.rho env.c env.D env.g (xUpdate env s) s.zk s.uk).2
          env.dim s.rho env.eps_abs env.eps_rel)
  · left
    refine ⟨if env.doPolish then
        env.ext.polishFn env.g
          (zuUpdate env.alpha s.rho env.c env.D env.g (xUpdate env s) s.zk s.uk).1
          env.P env.q env.r env.A env.b env.D env.c env.dim
      else (zuUpdate env.alpha s.rho env.c env.D env.g (xUpdate env s) s.zk s.uk).1, ?_⟩
    rw [if_pos hstop]
  · right
    rw [if_neg hstop]
    exact ⟨_, rfl, rfl, fun h => hstop (Or.inl h)⟩

theorem loopAux_reaches_return (env : Env) (N : ℕ) (hN : env.max_iter = (N : ℕ∞)) :
    ∀ (fuel : ℕ) (s : LoopSt), s.iter < N → N ≤ s.iter + fuel →
      ∃ z : V, loopAux env fuel s =
        some (env.ext.evalObj env.P env.q env.r env.g z env.c env.D, vmul env.D z) := by
  intro fuel
  induction fuel with
  | zero => intro s h1 h2; omega
  | succ fuel ih =>
    intro s h1 h2
    rcases loopBody_cases env s with ⟨z, hz⟩ | ⟨s', hs', hiter, hne⟩
    · exact ⟨z, by rw [loopAux, hz]⟩
    · have hlt : s.iter + 1 < N := by
        rcases Nat.lt_or_ge (s.iter + 1) N with h | h
        · exact h
        · have : s.iter + 1 = N := by omega
          exact absurd (by rw [this, hN]) hne
      have : ∃ z : V, loopAux env fuel s' =
          some (env.ext.evalObj env.P env.q env.r env.g z env.c env.D, vmul env.D z) :=
        ih s' (by omega) (by omega)
      rcases this with ⟨z, hz⟩
      refine ⟨z, ?_⟩
      rw [loopAux, hs']
      exact hz

/-- Claim C8: with a finite positive `max_iter` (and fuel at least that
large), `solve` terminates with a value rather than an error: the
objective at the final iterate and the un-scaled iterate
`equil_scaling * z`. -/
theorem c8_max_iter_returns (ext : Externals) (cfg : Config) (data : Problem)
    (N fuel : ℕ) (hN : cfg.max_iter = (N : ℕ∞)) (hpos : 0 < N) (hfuel : N ≤ fuel) :
    ∃ z : V, solve ext fuel cfg data =
      some (ext.evalObj (scaledData ext cfg data).1 (scaledData ext cfg data).2.1
          (scaledData ext cfg data).2.2.1 data.g z (scaledData ext cfg data).2.2.2.2.2
          (scaledData ext cfg data).2.2.2.2.1,
        vmul (scaledData ext cfg data).2.2.2.2.1 z) :=
  loopAux_reaches_return (mkEnv ext cfg data) N hN fuel (initSt ext cfg data) hpos
    (by omega)

/-- A concrete instantiation of the external collaborators, used by the
closed witnesses. -/
def trivialExt : Externals where
  ruizMain := fun P q r A => (P.toFun, q, r, A.toFun, List.replicate P.rows 1, 1)
  ruizB := fun _ _ _ _ b => b
  linSolve := fun _ rhs => rhs
  irSolve := fun _ _ rhs => rhs
  stopCrit := fun _ _ _ _ _ _ _ _ => false
  evalObj := fun _ _ r _ _ _ _ => r
  polishFn := fun _ z _ _ _ _ _ _ _ _ => z
  sqrtQ := fun _ => 0

/-- A concrete configuration with `max_iter = 1`, used by the closed
witnesses. -/
def cfgW : Config := { max_iter := ((1 : ℕ) : ℕ∞) }

/-- A concrete 1-variable problem whose constraint matrix has 2 rows but no
stored entries, used by the closed witnesses. -/
def probW : Problem :=
  { P := ⟨1, 1, []⟩, q := [0], r := 0, A := ⟨2, 1, []⟩, b := [0, 0], g := [] }

theorem c8_max_iter_returns_witness :
    ∃ z : V, solve trivialExt 1 cfgW probW =
      some (trivialExt.evalObj (scaledData trivialExt cfgW probW).1
          (scaledData trivialExt cfgW probW).2.1 (scaledData trivialExt cfgW probW).2.2.1
          probW.g z (scaledData trivialExt cfgW probW).2.2.2.2.2
          (scaledData trivialExt cfgW probW).2.2.2.2.1,
        vmul (scaledData trivialExt cfgW probW).2.2.2.2.1 z) :=
  c8_max_iter_returns trivialExt cfgW probW 1 1 rfl (by norm_num) (by norm_num)

theorem mkEnv_b_eq (ext : Externals) (cfg : Config) (data : Problem) (b' : V) :
    mkEnv ext cfg { data with b := b' } =
      { mkEnv ext cfg data with b := scaledB ext cfg { data with b := b' } } := by
  cases data
  rfl

theorem initSt_b_eq (ext : Externals) (cfg : Config) (data : Problem) (b' : V) :
    initSt ext cfg { data with b := b' } = initSt ext cfg data := by
  cases data
  rfl

theorem loopBody_b_irrel (env : Env) (b' : V) (hc : env.hasConstr = false)
    (hp : env.doPolish = false) (s : LoopSt) :
    loopBody { env with b := b' } s = loopBody env s := by
  cases env with
  | mk ext ea er al mi uir pol dim cdim hasC P q r A b D c g =>
    replace hc : hasC = false := hc
    replace hp : pol = false := hp
    subst hc hp
    simp [loopBody, xUpdate]

theorem loopAux_b_irrel (env : Env) (b' : V) (hc : env.hasConstr = false)
    (hp : env.doPolish = false) : ∀ (fuel : ℕ) (s : LoopSt),
      loopAux { env with b := b' } fuel s = loopAux env fuel s := by
  intro fuel
  induction fuel with
  | zero => intro s; rfl
  | succ fuel ih =>
    intro s
    show (match loopBody { env with b := b' } s with
        | Sum.inl out => some out
        | Sum.inr s' => loopAux { env with b := b' } fuel s') =
      (match loopBody env s with
        | Sum.inl out => some out
        | Sum.inr s' => loopAux env fuel s')
    rw [loopBody_b_irrel env b' hc hp s]
    cases loopBody env s with
    | inl out => rfl
    | inr s' => exact ih s'

/-- Claim C10: when the constraint matrix stores no entries, `solve` treats
the problem as unconstrained even with `m > 0` rows: the factorization
step hands `P + rho·I` alone to the factorization (no saddle matrix, no
regularized second matrix), and — with the post-loop polishing call, which
receives `b`, disabled — the vector `b` has no influence on the returned
objective or solution. -/
theorem c10_zero_nnz_unconstrained (ext : Externals) (fuel : ℕ) (cfg : Config)
    (data : Problem) (hA : data.A.nnz = 0) (hpol : cfg.polish = false) :
    initKKTOf ext cfg data =
      ((fun i j => (scaledData ext cfg data).1 i j +
          if i = j ∧ i < data.P.rows then cfg.rho else 0), none,
       (fun i j => (scaledData ext cfg data).1 i j +
          if i = j ∧ i < data.P.rows then cfg.rho else 0)) ∧
    (∀ b' : V, solve ext fuel cfg { data with b := b' } = solve ext fuel cfg data) := by
  constructor
  · simp [initKKTOf, hA]
  · intro b'
    have hc : (mkEnv ext cfg data).hasConstr = false := by
      simp [mkEnv, hA]
    have hp : (mkEnv ext cfg data).doPolish = false := hpol
    show loopAux (mkEnv ext cfg { data with b := b' }) fuel
        (initSt ext cfg { data with b := b' }) =
      loopAux (mkEnv ext cfg data) fuel (initSt ext cfg data)
    rw [initSt_b_eq, mkEnv_b_eq]
    exact loopAux_b_irrel (mkEnv ext cfg data) _ hc hp fuel _

theorem c10_zero_nnz_unconstrained_witness :
    initKKTOf trivialExt cfgW probW =
      ((fun i j => (scaledData trivialExt cfgW probW).1 i j +
          if i = j ∧ i < probW.P.rows then cfgW.rho else 0), none,
       (fun i j => (scaledData trivialExt cfgW probW).1 i j +
          if i = j ∧ i < probW.P.rows then cfgW.rho else 0)) ∧
    (∀ b' : V, solve trivialExt 1 cfgW { probW with b := b' } =
      solve trivialExt 1 cfgW probW) :=
  c10_zero_nnz_unconstrained trivialExt 1 cfgW probW rfl rfl

end QSSpec
